import Mathlib

/-!
Verification of the skill-management core of the AgentSkillsManager extension.

The development shallowly embeds the reconciliation / resolution logic of the
repository: host (IDE) resolution from `src/utils/ide.ts`, directory content
fingerprinting from `src/utils/skillCompare.ts`, the installed-skill scanner
from `src/utils/skills.ts`, the repository-skill classification from
`src/skillsProvider.ts`, and the rules-file synchronizer entry point from
`src/services/sync.ts`.  Filesystem state is made explicit (directory trees,
entry listings, file contents), external collaborators (the digest function,
the YAML field extractor, the rules-block generator) are taken as opaque
parameters, and JavaScript truthiness on strings (empty string is falsy) is
modelled explicitly where the source relies on it.
-/

namespace AgentSkills

/-! ### String helpers modelling the JavaScript string operations used by the source -/

/-- JS `String.prototype.toLowerCase` (ASCII case folding, via `Char.toLower`). -/
def strToLower (s : String) : String := ⟨s.data.map Char.toLower⟩

/-- Auxiliary scan for substring containment over character lists. -/
def strContainsAux (needle : List Char) : List Char → Bool
  | [] => needle.isEmpty
  | c :: rest => needle.isPrefixOf (c :: rest) || strContainsAux needle rest

/-- JS `String.prototype.includes`. -/
def strContains (s sub : String) : Bool := strContainsAux sub.data s.data

/-- JS `String.prototype.startsWith`. -/
def strStartsWith (s pre : String) : Bool := pre.data.isPrefixOf s.data

/-- JS `String.prototype.endsWith`. -/
def strEndsWith (s suf : String) : Bool := suf.data.isSuffixOf s.data

/-- `path.join` restricted to two segments, with the separator normalized to
a forward slash (the source normalizes separators before hashing/serializing). -/
def pathJoin (a b : String) : String := a ++ "/" ++ b

/-! ### Host resolver, from `src/utils/ide.ts` -/

/-- The enum `IdeType` of `src/utils/ide.ts`. -/
inductive IdeType where
  | VSCODE
  | CURSOR
  | WINDSURF
  | TRAE
  | ANTIGRAVITY
deriving DecidableEq, Repr

/-- The string value each `IdeType` enum member carries in the source. -/
def IdeType.idStr : IdeType → String
  | .VSCODE => "vscode"
  | .CURSOR => "cursor"
  | .WINDSURF => "windsurf"
  | .TRAE => "trae"
  | .ANTIGRAVITY => "antigravity"

/-- `Object.values(IdeType)` in declaration order. -/
def ideTypeValues : List IdeType := [.VSCODE, .CURSOR, .WINDSURF, .TRAE, .ANTIGRAVITY]

/-- The interface `IdeConfig` of `src/utils/ide.ts`. -/
structure IdeConfig where
  type : IdeType
  rulesFile : String
  initialContent : String
deriving DecidableEq, Repr

/-- The constant `DEFAULT_AGENTS_MD_CONTENT` of `src/utils/ide.ts`. -/
def DEFAULT_AGENTS_MD_CONTENT : String :=
  "# AGENTS\n\nInsert overview text here. The agent will only see this should they choose to apply the rule.\n\n"

/-- The static table `IDE_CONFIGS` of `src/utils/ide.ts`. -/
def IDE_CONFIGS : IdeType → IdeConfig
  | .ANTIGRAVITY =>
      { type := .ANTIGRAVITY
        rulesFile := pathJoin (pathJoin ".agent" "rules") "openskills.md"
        initialContent := "---\ntrigger: always_on\n---\nInsert overview text here. The agent will only see this should they choose to apply the rule.\n\n" }
  | .CURSOR =>
      { type := .CURSOR
        rulesFile := pathJoin (pathJoin ".cursor" "rules") "openskills.mdc"
        initialContent := "---\nalwaysApply: true\n---\nInsert overview text here. The agent will only see this should they choose to apply the rule.\n\n" }
  | .WINDSURF =>
      { type := .WINDSURF
        rulesFile := pathJoin (pathJoin ".windsurf" "rules") "openskills.md"
        initialContent := "---\ntrigger: manual\n---\nInsert overview text here. The agent will only see this should they choose to apply the rule.\n\n" }
  | .TRAE =>
      { type := .TRAE
        rulesFile := pathJoin (pathJoin ".trae" "rules") "openskills.md"
        initialContent := "---\nalwaysApply: true\n---\nInsert overview text here. The agent will only see this should they choose to apply the rule.\n\n" }
  | .VSCODE =>
      { type := .VSCODE
        rulesFile := "AGENTS.md"
        initialContent := DEFAULT_AGENTS_MD_CONTENT }

/-- `resolveIdeType` of `src/utils/ide.ts`: case-insensitive substring
matching on the app-name hint, in the fixed priority order of the source. -/
def resolveIdeType (appName : String) : IdeType :=
  let lowerAppName := strToLower appName
  if strContains lowerAppName "cursor" then .CURSOR
  else if strContains lowerAppName "windsurf" then .WINDSURF
  else if strContains lowerAppName "trae" then .TRAE
  else if strContains lowerAppName "antigravity" then .ANTIGRAVITY
  else .VSCODE

/-- The slice of `process.env` that `detectIde` reads.  `none` models an unset
variable; the empty string is falsy in the source's truthiness tests. -/
structure ProcessEnv where
  OPENSKILLS_IDE : Option String
  VSCODE_ENV_APPNAME : Option String
  PROG_IDE_NAME : Option String

/-- JS `a || b` on an optional string (unset and empty both fall through). -/
def strOrFalsy (a : Option String) (b : String) : String :=
  match a with
  | some s => if s = "" then b else s
  | none => b

/-- The app-name fallback chain `env.VSCODE_ENV_APPNAME || env.PROG_IDE_NAME || ''`. -/
def envAppName (env : ProcessEnv) : String :=
  strOrFalsy env.VSCODE_ENV_APPNAME (strOrFalsy env.PROG_IDE_NAME "")

/-- `Object.values(IdeType).includes(s)` packaged as a lookup: the enum member
whose string value is `s`, if any. -/
def ideOfId (s : String) : Option IdeType := ideTypeValues.find? (fun t => t.idStr == s)

/-- `detectIde` of `src/utils/ide.ts`: explicit override via
`OPENSKILLS_IDE` (lower-cased, then membership-tested against the enum
values), falling back to `resolveIdeType` on the app-name chain. -/
def detectIde (env : ProcessEnv) : IdeType :=
  match env.OPENSKILLS_IDE with
  | some s =>
      if s = "" then resolveIdeType (envAppName env)
      else
        match ideOfId (strToLower s) with
        | some t => t
        | none => resolveIdeType (envAppName env)
  | none => resolveIdeType (envAppName env)

/-- `getIdeConfig` of `src/utils/ide.ts`: exact membership test against the
enum values, otherwise the argument is treated as an app-name hint. -/
def getIdeConfig (ide : String) : IdeConfig :=
  match ideOfId ide with
  | some t => IDE_CONFIGS t
  | none => IDE_CONFIGS (resolveIdeType ide)

/-- Concrete environment used to refute claim C6 as literally stated. -/
def c6Env : ProcessEnv := ⟨some "CURSOR", some "windsurf", none⟩

/-- Claim C6, counterexample.  The claim says that when the override value does
not (literally) equal a known profile id, resolution inspects the hint; but for
the override value "CURSOR" (not one of the lower-case profile ids) and the
hint "windsurf", `detectIde` still returns the Cursor profile because the
source lower-cases the override before the membership test, whereas the claim
mandates the Windsurf profile from the hint. -/
theorem c6_counterexample :
    detectIde c6Env = IdeType.CURSOR ∧ ideOfId "CURSOR" = none ∧
      resolveIdeType (envAppName c6Env) = IdeType.WINDSURF ∧
      IdeType.CURSOR ≠ IdeType.WINDSURF := by
  decide

/-- Claim C6 (amended): the override value is compared case-insensitively
(lower-cased) against the known profile ids and, when it matches, wins
unconditionally regardless of the hint; otherwise the hint is inspected
case-insensitively for the brand substrings in the fixed priority order
cursor, windsurf, trae, antigravity, the first match winning; with no match
resolution returns the default (vscode) profile. -/
theorem c6_amended (env : ProcessEnv) :
    (∀ s t, env.OPENSKILLS_IDE = some s → ideOfId (strToLower s) = some t →
      detectIde env = t) ∧
    (env.OPENSKILLS_IDE = none → detectIde env = resolveIdeType (envAppName env)) ∧
    (∀ s, env.OPENSKILLS_IDE = some s → ideOfId (strToLower s) = none →
      detectIde env = resolveIdeType (envAppName env)) ∧
    (∀ hint, strContains (strToLower hint) "cursor" = true →
      resolveIdeType hint = IdeType.CURSOR) ∧
    (∀ hint, strContains (strToLower hint) "cursor" = false →
      strContains (strToLower hint) "windsurf" = true →
      resolveIdeType hint = IdeType.WINDSURF) ∧
    (∀ hint, strContains (strToLower hint) "cursor" = false →
      strContains (strToLower hint) "windsurf" = false →
      strContains (strToLower hint) "trae" = true →
      resolveIdeType hint = IdeType.TRAE) ∧
    (∀ hint, strContains (strToLower hint) "cursor" = false →
      strContains (strToLower hint) "windsurf" = false →
      strContains (strToLower hint) "trae" = false →
      strContains (strToLower hint) "antigravity" = true →
      resolveIdeType hint = IdeType.ANTIGRAVITY) ∧
    (∀ hint, strContains (strToLower hint) "cursor" = false →
      strContains (strToLower hint) "windsurf" = false →
      strContains (strToLower hint) "trae" = false →
      strContains (strToLower hint) "antigravity" = false →
      resolveIdeType hint = IdeType.VSCODE) := by
  refine ⟨?_, ?_, ?_, ?_, ?_, ?_, ?_, ?_⟩
  · intro s t h1 h2
    by_cases hs : s = ""
    · subst hs
      have : ideOfId (strToLower "") = none := by decide
      rw [this] at h2
      exact absurd h2 (by simp)
    · simp [detectIde, h1, hs, h2]
  · intro h
    simp [detectIde, h]
  · intro s h1 h2
    by_cases hs : s = ""
    · simp [detectIde, h1, hs]
    · simp [detectIde, h1, hs, h2]
  · intro hint h
    simp [resolveIdeType, h]
  · intro hint h1 h2
    simp [resolveIdeType, h1, h2]
  · intro hint h1 h2 h3
    simp [resolveIdeType, h1, h2, h3]
  · intro hint h1 h2 h3 h4
    simp [resolveIdeType, h1, h2, h3, h4]
  · intro hint h1 h2 h3 h4
    simp [resolveIdeType, h1, h2, h3, h4]

/-- Witness for C6 (amended): an exactly-matching override beats a hint that
would resolve to a different profile. -/
theorem c6_amended_witness :
    detectIde ⟨some "cursor", some "windsurf", none⟩ = IdeType.CURSOR :=
  (c6_amended ⟨some "cursor", some "windsurf", none⟩).1 "cursor" IdeType.CURSOR rfl (by decide)

/-- Claim C7, counterexample.  The claim says a direct lookup with an id
outside the enumerated set fails with a defined error rather than silently
returning a default profile; but `getIdeConfig` is total: for the unknown id
"emacs" it silently returns the default (vscode) profile. -/
theorem c7_counterexample :
    getIdeConfig "emacs" = IDE_CONFIGS IdeType.VSCODE ∧ ideOfId "emacs" = none := by
  decide

/-- Claim C7 (amended): for every id inside the enumerated set the lookup
returns that id's profile from the static table; for every string outside the
set the lookup does not fail — it falls back to treating the string as an
app-name hint, resolving it by substring matching (hence the default vscode
profile when nothing matches). -/
theorem c7_amended (s : String) :
    (∀ t, ideOfId s = some t → getIdeConfig s = IDE_CONFIGS t) ∧
    (∀ t : IdeType, ideOfId t.idStr = some t) ∧
    (ideOfId s = none → getIdeConfig s = IDE_CONFIGS (resolveIdeType s)) := by
  refine ⟨?_, ?_, ?_⟩
  · intro t h
    simp [getIdeConfig, h]
  · intro t
    cases t <;> decide
  · intro h
    simp [getIdeConfig, h]

/-- Witness for C7 (amended): the in-set id "cursor" maps to the Cursor row of
the static table. -/
theorem c7_amended_witness : getIdeConfig "cursor" = IDE_CONFIGS IdeType.CURSOR :=
  (c7_amended "cursor").1 IdeType.CURSOR (by decide)

/-! ### Content fingerprinting, from `src/utils/skillCompare.ts`

A directory's contents are modelled as a tree of entries; `readdirSync`'s
enumeration order is the list order.  The `md5` digest from the `crypto`
collaborator is an opaque parameter `digest`; a broken symlink (whose
`readlinkSync` throws) is a `symlink` with target `none`.  `none` at the
`Option (List FsEntry)` level models a directory for which `existsSync`
returns false. -/

/-- A filesystem entry as seen by `collectFileHashes`. -/
inductive FsEntry where
  | file (name : String) (content : String)
  | dir (name : String) (entries : List FsEntry)
  | symlink (name : String) (target : Option String)

/-- The `path.relative(basePath, fullPath)` string (separators normalized to
forward slashes) for an entry named `n` under the relative prefix `pre`. -/
def relPath (pre n : String) : String := if pre = "" then n else pre ++ "/" ++ n

/-- JS `Array.prototype.sort()` on strings (lexicographic). -/
def sortStrings (l : List String) : List String := l.insertionSort (· ≤ ·)

mutual

/-- Per-entry part of `collectFileHashes`: hidden entries are skipped, files
contribute `"relativePath:hash"`, symlinks `"relativePath:link:hash"` of
their target string, and subdirectories recurse (returning their sorted
sub-list, as the recursive call to `collectFileHashes` does). -/
def collectEntry (digest : String → String) (pre : String) : FsEntry → List String
  | .file n c =>
      if strStartsWith n "." then [] else [relPath pre n ++ ":" ++ digest c]
  | .dir n es =>
      if strStartsWith n "." then [] else sortStrings (collectAll digest (relPath pre n) es)
  | .symlink n t =>
      if strStartsWith n "." then []
      else
        match t with
        | some target => [relPath pre n ++ ":link:" ++ digest target]
        | none => []

/-- The entry loop of `collectFileHashes`: concatenation of per-entry results
in enumeration order. -/
def collectAll (digest : String → String) (pre : String) : List FsEntry → List String
  | [] => []
  | e :: es => collectEntry digest pre e ++ collectAll digest pre es

end

/-- `collectFileHashes` of `src/utils/skillCompare.ts`: empty for a missing
directory, otherwise the collected `"relativePath:hash"` strings sorted
lexicographically. -/
def collectFileHashes (digest : String → String) (d : Option (List FsEntry)) : List String :=
  match d with
  | none => []
  | some es => sortStrings (collectAll digest "" es)

/-- `computeDirectoryHash` of `src/utils/skillCompare.ts`: digest of the
newline-joined sorted hash list. -/
def computeDirectoryHash (digest : String → String) (d : Option (List FsEntry)) : String :=
  digest (String.intercalate "\n" (collectFileHashes digest d))

/-! ### Reordered filesystem enumeration

`Reorder` relates an entry (left injection) or an entry listing (right
injection) to a counterpart holding identical content whose directory
listings — at any depth — may enumerate in a different order.  Its listing
constructors mirror those of `List.Perm`. -/

/-- One relation over both levels of the tree: entries and entry listings. -/
inductive Reorder : FsEntry ⊕ List FsEntry → FsEntry ⊕ List FsEntry → Prop where
  | file (n c : String) : Reorder (.inl (.file n c)) (.inl (.file n c))
  | symlink (n : String) (t : Option String) :
      Reorder (.inl (.symlink n t)) (.inl (.symlink n t))
  | dir (n : String) {es es' : List FsEntry} (h : Reorder (.inr es) (.inr es')) :
      Reorder (.inl (.dir n es)) (.inl (.dir n es'))
  | nil : Reorder (.inr []) (.inr [])
  | cons {e e' : FsEntry} {es es' : List FsEntry} (he : Reorder (.inl e) (.inl e'))
      (hes : Reorder (.inr es) (.inr es')) : Reorder (.inr (e :: es)) (.inr (e' :: es'))
  | swap (e₁ e₂ : FsEntry) (es : List FsEntry) :
      Reorder (.inr (e₁ :: e₂ :: es)) (.inr (e₂ :: e₁ :: es))
  | trans {x y z : FsEntry ⊕ List FsEntry} (h₁ : Reorder x y) (h₂ : Reorder y z) :
      Reorder x z

/-- Two entry listings with the same content up to enumeration order at any
depth. -/
def ReorderList (es es' : List FsEntry) : Prop := Reorder (.inr es) (.inr es')

theorem sortStrings_sorted (l : List String) : (sortStrings l).Sorted (· ≤ ·) :=
  List.sorted_insertionSort _ l

theorem sortStrings_perm (l : List String) : List.Perm (sortStrings l) l :=
  List.perm_insertionSort _ l

theorem sortStrings_eq_of_perm {l l' : List String} (h : List.Perm l l') :
    sortStrings l = sortStrings l' :=
  List.eq_of_perm_of_sorted ((sortStrings_perm l).trans (h.trans (sortStrings_perm l').symm))
    (sortStrings_sorted l) (sortStrings_sorted l')

/-- The statement proved by induction on a `Reorder` derivation: equal
per-entry output on the entry level, permuted concatenation on the listing
level (`False` rules out cross-level derivations). -/
def ReorderGoal (digest : String → String) (pre : String) :
    FsEntry ⊕ List FsEntry → FsEntry ⊕ List FsEntry → Prop
  | .inl e, .inl e' => collectEntry digest pre e = collectEntry digest pre e'
  | .inr es, .inr es' => List.Perm (collectAll digest pre es) (collectAll digest pre es')
  | _, _ => False

theorem reorder_goal (digest : String → String) {a b : FsEntry ⊕ List FsEntry}
    (h : Reorder a b) : ∀ pre, ReorderGoal digest pre a b := by
  induction h with
  | file n c => intro pre; simp [ReorderGoal]
  | symlink n t => intro pre; simp [ReorderGoal]
  | dir n h ih =>
      intro pre
      have hperm := ih (relPath pre n)
      simp only [ReorderGoal] at hperm ⊢
      simp only [collectEntry]
      rw [sortStrings_eq_of_perm hperm]
  | nil => intro pre; simp only [ReorderGoal]; exact List.Perm.refl _
  | cons he hes ihe ihes =>
      intro pre
      have h1 := ihe pre
      have h2 := ihes pre
      simp only [ReorderGoal] at h1 h2 ⊢
      simp only [collectAll]
      rw [h1]
      exact List.Perm.append_left _ h2
  | swap e₁ e₂ es =>
      intro pre
      simp only [ReorderGoal, collectAll, ← List.append_assoc]
      exact List.Perm.append_right _ List.perm_append_comm
  | trans h₁ h₂ ih₁ ih₂ =>
      rename_i x y z
      intro pre
      have g1 := ih₁ pre
      have g2 := ih₂ pre
      cases x <;> cases y <;> cases z <;>
        simp only [ReorderGoal] at g1 g2 ⊢ <;>
        exact g1.trans g2

theorem collectAll_reorder (digest : String → String) (pre : String)
    {es es' : List FsEntry} (h : ReorderList es es') :
    List.Perm (collectAll digest pre es) (collectAll digest pre es') :=
  reorder_goal digest h pre

/-- Claim C3: the directory fingerprint is deterministic (trivially, the
embedding is a pure function) and independent of filesystem enumeration
order: reordering the enumerated entries — at any depth — leaves
`computeDirectoryHash` unchanged, because the per-file strings are sorted
lexicographically before the final digest. -/
theorem c3_fingerprint_order_independent (digest : String → String) :
    (∀ d : Option (List FsEntry), computeDirectoryHash digest d = computeDirectoryHash digest d) ∧
    (∀ es es' : List FsEntry, ReorderList es es' →
      computeDirectoryHash digest (some es) = computeDirectoryHash digest (some es')) := by
  refine ⟨fun _ => rfl, fun es es' h => ?_⟩
  simp only [computeDirectoryHash, collectFileHashes]
  rw [sortStrings_eq_of_perm (collectAll_reorder digest "" h)]

/-- First enumeration order of the witness tree for C3. -/
def c3TreeA : List FsEntry :=
  [.file "b" "2", .dir "sub" [.file "x" "1", .file "y" "2"], .file "a" "1"]

/-- Second enumeration order of the witness tree for C3 (top level and the
subdirectory both permuted). -/
def c3TreeB : List FsEntry :=
  [.dir "sub" [.file "y" "2", .file "x" "1"], .file "b" "2", .file "a" "1"]

/-- Witness for C3 at a concrete tree and its reordered enumeration. -/
theorem c3_witness :
    computeDirectoryHash (fun s => s) (some c3TreeA) =
      computeDirectoryHash (fun s => s) (some c3TreeB) :=
  (c3_fingerprint_order_independent (fun s => s)).2 c3TreeA c3TreeB
    (Reorder.trans (Reorder.swap _ _ _)
      (Reorder.cons (Reorder.dir _ (Reorder.swap _ _ _))
        (Reorder.cons (Reorder.file _ _)
          (Reorder.cons (Reorder.file _ _) Reorder.nil))))

/-! ### Hidden entries are excluded at every depth -/

mutual

/-- Removes an entry if hidden (dot-prefixed); recursively strips hidden
entries out of subdirectories. -/
def stripEntry : FsEntry → Option FsEntry
  | .file n c => if strStartsWith n "." then none else some (.file n c)
  | .symlink n t => if strStartsWith n "." then none else some (.symlink n t)
  | .dir n es => if strStartsWith n "." then none else some (.dir n (stripList es))

/-- Removes hidden entries from a listing, at every depth. -/
def stripList : List FsEntry → List FsEntry
  | [] => []
  | e :: es =>
      match stripEntry e with
      | some e2 => e2 :: stripList es
      | none => stripList es

end

mutual

theorem collectEntry_strip (digest : String → String) (pre : String) : ∀ e : FsEntry,
    collectEntry digest pre e =
      (match stripEntry e with
       | some e2 => collectEntry digest pre e2
       | none => [])
  | .file n c => by
      by_cases h : strStartsWith n "." <;> simp [collectEntry, stripEntry, h]
  | .symlink n t => by
      by_cases h : strStartsWith n "." <;> simp [collectEntry, stripEntry, h]
  | .dir n es => by
      by_cases h : strStartsWith n "."
      · simp [collectEntry, stripEntry, h]
      · simp only [collectEntry, stripEntry, h, Bool.false_eq_true, if_false]
        rw [collectAll_strip digest (relPath pre n) es]

theorem collectAll_strip (digest : String → String) (pre : String) : ∀ es : List FsEntry,
    collectAll digest pre es = collectAll digest pre (stripList es)
  | [] => rfl
  | e :: es => by
      simp only [collectAll, stripList]
      rw [collectEntry_strip digest pre e]
      cases h : stripEntry e with
      | none => simpa using collectAll_strip digest pre es
      | some e2 => simp [collectAll, collectAll_strip digest pre es]

end

/-- Claim C4: the fingerprint ignores hidden (dot-prefixed) entries at every
depth of the recursion: two trees that agree after removing all hidden
entries — in particular, a tree before and after adding a hidden file or
subdirectory anywhere inside it — have the same directory fingerprint. -/
theorem c4_hidden_entries_ignored (digest : String → String)
    (es es' : List FsEntry) (h : stripList es = stripList es') :
    computeDirectoryHash digest (some es) = computeDirectoryHash digest (some es') := by
  simp only [computeDirectoryHash, collectFileHashes]
  rw [collectAll_strip digest "" es, h, ← collectAll_strip digest "" es']

/-- Witness tree for C4 containing a hidden file inside a subdirectory and a
hidden symlink at the top level. -/
def c4TreeA : List FsEntry :=
  [.dir "sub" [.file ".hidden" "zzz", .file "m" "1"], .file "a" "x",
   .symlink ".ghost" (some "tgt")]

/-- The C4 witness tree with the hidden entries removed. -/
def c4TreeB : List FsEntry :=
  [.dir "sub" [.file "m" "1"], .file "a" "x"]

/-- Witness for C4: adding a hidden file at depth two and a hidden symlink at
the top level does not change the fingerprint. -/
theorem c4_witness :
    computeDirectoryHash (fun s => s) (some c4TreeA) =
      computeDirectoryHash (fun s => s) (some c4TreeB) :=
  c4_hidden_entries_ignored (fun s => s) c4TreeA c4TreeB rfl

/-! ### Fingerprint cache, from `src/utils/skillCompare.ts` -/

/-- The `fs.statSync` view of a directory: its modification time and entry
listing (the source reads `stats.mtimeMs`; time is abstracted to `Nat`). -/
structure FsDirState where
  mtime : Nat
  entries : List FsEntry

/-- A filesystem assigning to each directory path its state, or `none` when
`existsSync` is false. -/
def Filesystem : Type := String → Option FsDirState

/-- The module-level `hashCache` map, keyed by directory path. -/
def HashCache : Type := List (String × String × Nat)

/-- `hashCache.get(dirPath)`. -/
def cacheLookup (cache : HashCache) (p : String) : Option (String × Nat) :=
  match cache.find? (fun e => e.1 == p) with
  | some e => some e.2
  | none => none

/-- `hashCache.set(dirPath, { hash, mtime })`. -/
def cacheSet (cache : HashCache) (p : String) (h : String) (t : Nat) : HashCache :=
  (p, h, t) :: cache.filter (fun e => !(e.1 == p))

/-- `getCachedDirectoryHash` of `src/utils/skillCompare.ts`: the empty string
for a missing directory; the cached fingerprint when the stored modification
time equals the current one; otherwise a recomputation that updates the
cache. -/
def getCachedDirectoryHash (digest : String → String) (fs : Filesystem) (cache : HashCache)
    (dirPath : String) : String × HashCache :=
  match fs dirPath with
  | none => ("", cache)
  | some d =>
      match cacheLookup cache dirPath with
      | some (h, t) =>
          if t = d.mtime then (h, cache)
          else
            let h2 := computeDirectoryHash digest (some d.entries)
            (h2, cacheSet cache dirPath h2 d.mtime)
      | none =>
          let h2 := computeDirectoryHash digest (some d.entries)
          (h2, cacheSet cache dirPath h2 d.mtime)

/-- `clearHashCache` of `src/utils/skillCompare.ts`: drops all entries. -/
def clearHashCache (_cache : HashCache) : HashCache := []

/-- Claim C8: the cached fingerprint agrees with the uncached computation:
for an existing directory, a cache entry with the current modification time
is returned as is; a missing or outdated entry triggers recomputation via
`computeDirectoryHash` and a cache update; and after `clearHashCache` the
next request recomputes the `computeDirectoryHash` value rather than
returning a stale cached one, even if the modification time is unchanged. -/
theorem c8_cache_agrees (digest : String → String) (fs : Filesystem) (cache : HashCache)
    (p : String) (d : FsDirState) (hfs : fs p = some d) :
    (∀ h, cacheLookup cache p = some (h, d.mtime) →
        getCachedDirectoryHash digest fs cache p = (h, cache)) ∧
    (cacheLookup cache p = none →
        getCachedDirectoryHash digest fs cache p =
          (computeDirectoryHash digest (some d.entries),
           cacheSet cache p (computeDirectoryHash digest (some d.entries)) d.mtime)) ∧
    (∀ h t, cacheLookup cache p = some (h, t) → t ≠ d.mtime →
        getCachedDirectoryHash digest fs cache p =
          (computeDirectoryHash digest (some d.entries),
           cacheSet cache p (computeDirectoryHash digest (some d.entries)) d.mtime)) ∧
    (clearHashCache cache = [] ∧
     getCachedDirectoryHash digest fs (clearHashCache cache) p =
        (computeDirectoryHash digest (some d.entries),
         cacheSet [] p (computeDirectoryHash digest (some d.entries)) d.mtime)) := by
  refine ⟨?_, ?_, ?_, rfl, ?_⟩
  · intro h hc
    simp [getCachedDirectoryHash, hfs, hc]
  · intro hc
    simp [getCachedDirectoryHash, hfs, hc]
  · intro h t hc ht
    simp [getCachedDirectoryHash, hfs, hc, ht]
  · have hc : cacheLookup ([] : HashCache) p = none := rfl
    simp [getCachedDirectoryHash, hfs, clearHashCache, hc]

/-- Concrete filesystem for the C8 witness. -/
def c8Fs : Filesystem := fun p =>
  if p = "/ws/.agent/skills/alpha" then some ⟨7, [FsEntry.file "SKILL.md" "hello"]⟩ else none

/-- Witness for C8: after clearing a cache whose entry has the still-current
modification time, the next request recomputes the uncached value. -/
theorem c8_witness :
    getCachedDirectoryHash (fun s => s) c8Fs
        (clearHashCache [("/ws/.agent/skills/alpha", "stale", 7)]) "/ws/.agent/skills/alpha" =
      (computeDirectoryHash (fun s => s) (some [FsEntry.file "SKILL.md" "hello"]),
       cacheSet [] "/ws/.agent/skills/alpha"
         (computeDirectoryHash (fun s => s) (some [FsEntry.file "SKILL.md" "hello"])) 7) :=
  (c8_cache_agrees (fun s => s) c8Fs [("/ws/.agent/skills/alpha", "stale", 7)]
    "/ws/.agent/skills/alpha" ⟨7, [FsEntry.file "SKILL.md" "hello"]⟩ rfl).2.2.2.2

/-! ### Installed skills and the scanner, from `src/types.ts` and `src/utils/skills.ts` -/

/-- The `location` field of `InstalledSkill` in `src/types.ts`. -/
inductive SkillLocation where
  | project
  | global
deriving DecidableEq, Repr

/-- The interface `InstalledSkill` of `src/types.ts`. -/
structure InstalledSkill where
  name : String
  description : String
  location : SkillLocation
  path : String
  explicitLocation : Option String
deriving DecidableEq, Repr

/-- The interface `SkillDirectory` of `src/utils/skills.ts`. -/
structure SkillDirectory where
  path : String
  displayName : String
  isProject : Bool
  icon : String
deriving DecidableEq, Repr

/-- `getSkillDirectories` of `src/utils/skills.ts`: the fixed search list,
project-scope directories first, then global (home-directory) ones.
`os.homedir()` is the explicit `homedir` argument. -/
def getSkillDirectories (workspaceRoot homedir : String) : List SkillDirectory :=
  [ { path := pathJoin (pathJoin workspaceRoot ".agent") "skills"
      displayName := ".agent/skills", isProject := true, icon := "folder" },
    { path := pathJoin (pathJoin workspaceRoot ".cursor") "skills"
      displayName := ".cursor/skills", isProject := true, icon := "folder" },
    { path := pathJoin (pathJoin workspaceRoot ".trae") "skills"
      displayName := ".trae/skills", isProject := true, icon := "folder" },
    { path := pathJoin (pathJoin workspaceRoot ".windsurf") "skills"
      displayName := ".windsurf/skills", isProject := true, icon := "folder" },
    { path := pathJoin (pathJoin homedir ".agent") "skills"
      displayName := "~/.agent/skills", isProject := false, icon := "home" },
    { path := pathJoin (pathJoin homedir ".codex") "skills"
      displayName := "~/.codex/skills", isProject := false, icon := "home" },
    { path := pathJoin (pathJoin homedir ".claude") "skills"
      displayName := "~/.claude/skills", isProject := false, icon := "home" } ]

/-- `getSearchDirs` of `src/utils/skills.ts`. -/
def getSearchDirs (workspaceRoot homedir : String) : List String :=
  (getSkillDirectories workspaceRoot homedir).map SkillDirectory.path

/-- A directory entry as seen by `readdirSync(dir, { withFileTypes: true })`,
together with the state the scanner probes right after: `symlinkTargetIsDir`
is the `statSync` result on a symlink (`none` when `statSync` throws, i.e. a
broken link), and `skillMd` is the content of `dir/name/SKILL.md` when that
file exists. -/
structure DirEntry where
  name : String
  isDirectory : Bool
  isSymbolicLink : Bool
  symlinkTargetIsDir : Option Bool
  skillMd : Option String
deriving DecidableEq, Repr

/-- `isDirectoryOrSymlinkToDirectory` of `src/utils/skills.ts`. -/
def isDirectoryOrSymlinkToDirectory (e : DirEntry) : Bool :=
  if e.isDirectory then true
  else if e.isSymbolicLink then
    match e.symlinkTargetIsDir with
    | some b => b
    | none => false
  else false

/-- The directory-listing side of the filesystem: `none` models a directory
for which `existsSync` is false (or whose `readdirSync` throws). -/
def ScanFs : Type := String → Option (List DirEntry)

/-- `path.relative(base, p)` for the paths produced here (where `p` sits
under `base`), normalized to forward slashes. -/
def pathRelative (base p : String) : String :=
  if strStartsWith p (base ++ "/") then ⟨p.data.drop (base.data.length + 1)⟩ else p

/-- The `InstalledSkill` record pushed by `findAllInstalledSkills` for a
qualifying entry `e` of directory `dirPath` whose `SKILL.md` holds
`content`.  `extract` is the external `extractYamlField(content,
'description')` collaborator from `src/utils/yaml.ts`, kept opaque. -/
def mkInstalledSkill (extract : String → String) (root dirPath : String) (e : DirEntry)
    (content : String) : InstalledSkill :=
  let isProjectLocal := strStartsWith dirPath root
  { name := e.name
    description := extract content
    location := if isProjectLocal then .project else .global
    path := pathJoin dirPath e.name
    explicitLocation :=
      if isProjectLocal then
        some (pathRelative root (pathJoin (pathJoin dirPath e.name) "SKILL.md"))
      else none }

/-- The entry loop of `findAllInstalledSkills` for one directory: a
qualifying entry whose name is not yet `seen` and whose `SKILL.md` exists is
pushed and its name marked seen. -/
def scanDirEntries (extract : String → String) (root dirPath : String) :
    List DirEntry → List String → List InstalledSkill × List String
  | [], seen => ([], seen)
  | e :: rest, seen =>
      if isDirectoryOrSymlinkToDirectory e then
        if e.name ∈ seen then scanDirEntries extract root dirPath rest seen
        else
          match e.skillMd with
          | some content =>
              let s := mkInstalledSkill extract root dirPath e content
              let p := scanDirEntries extract root dirPath rest (e.name :: seen)
              (s :: p.1, p.2)
          | none => scanDirEntries extract root dirPath rest seen
      else scanDirEntries extract root dirPath rest seen

/-- The directory loop of `findAllInstalledSkills`: missing directories are
skipped, the `seen` set is threaded across directories. -/
def scanDirs (fs : ScanFs) (extract : String → String) (root : String) :
    List String → List String → List InstalledSkill × List String
  | [], seen => ([], seen)
  | d :: ds, seen =>
      match fs d with
      | none => scanDirs fs extract root ds seen
      | some entries =>
          let p := scanDirEntries extract root d entries seen
          let q := scanDirs fs extract root ds p.2
          (p.1 ++ q.1, q.2)

/-- `findAllInstalledSkills` of `src/utils/skills.ts`. -/
def findAllInstalledSkills (fs : ScanFs) (extract : String → String)
    (root home : String) : List InstalledSkill :=
  (scanDirs fs extract root (getSearchDirs root home) []).1

/-! ### A dedup-free reference reading of the scanner, for the dedup claims -/

/-- All skills a single listing would yield with deduplication disabled:
every qualifying entry (directory or symlink-to-directory, `SKILL.md`
present), in enumeration order. -/
def rawEntrySkills (extract : String → String) (root dirPath : String)
    (es : List DirEntry) : List InstalledSkill :=
  es.filterMap (fun e =>
    if isDirectoryOrSymlinkToDirectory e then
      e.skillMd.map (mkInstalledSkill extract root dirPath e)
    else none)

/-- All skills a single search directory would yield with deduplication
disabled. -/
def rawDirSkills (fs : ScanFs) (extract : String → String) (root : String)
    (d : String) : List InstalledSkill :=
  match fs d with
  | none => []
  | some es => rawEntrySkills extract root d es

/-- First-occurrence-wins deduplication by name against a `seen` set,
returning the kept skills and the extended set. -/
def dedupWithSeen : List InstalledSkill → List String → List InstalledSkill × List String
  | [], seen => ([], seen)
  | s :: rest, seen =>
      if s.name ∈ seen then dedupWithSeen rest seen
      else
        let p := dedupWithSeen rest (s.name :: seen)
        (s :: p.1, p.2)

theorem scanDirEntries_eq_dedup (extract : String → String) (root d : String) :
    ∀ (es : List DirEntry) (seen : List String),
      scanDirEntries extract root d es seen =
        dedupWithSeen (rawEntrySkills extract root d es) seen
  | [], seen => rfl
  | e :: rest, seen => by
      by_cases hq : isDirectoryOrSymlinkToDirectory e = true
      · cases hmd : e.skillMd with
        | some c =>
            by_cases hs : e.name ∈ seen
            · simp only [scanDirEntries, rawEntrySkills, List.filterMap_cons, hq, hmd, if_true,
                if_pos hs, Option.map_some]
              rw [scanDirEntries_eq_dedup extract root d rest seen]
              simp [dedupWithSeen, mkInstalledSkill, hs, rawEntrySkills]
            · simp only [scanDirEntries, rawEntrySkills, List.filterMap_cons, hq, hmd, if_true,
                if_neg hs, Option.map_some]
              rw [scanDirEntries_eq_dedup extract root d rest (e.name :: seen)]
              simp [dedupWithSeen, mkInstalledSkill, hs, rawEntrySkills]
        | none =>
            simp only [scanDirEntries, rawEntrySkills, List.filterMap_cons, hq, hmd, if_true,
              Option.map_none]
            rw [scanDirEntries_eq_dedup extract root d rest seen]
            by_cases hs : e.name ∈ seen <;> simp [dedupWithSeen, hs, rawEntrySkills]
      · simp only [scanDirEntries, rawEntrySkills, List.filterMap_cons, hq, if_neg hq]
        rw [scanDirEntries_eq_dedup extract root d rest seen]
        simp [rawEntrySkills, hq]

theorem dedupWithSeen_append :
    ∀ (l₁ l₂ : List InstalledSkill) (seen : List String),
      dedupWithSeen (l₁ ++ l₂) seen =
        ((dedupWithSeen l₁ seen).1 ++ (dedupWithSeen l₂ (dedupWithSeen l₁ seen).2).1,
         (dedupWithSeen l₂ (dedupWithSeen l₁ seen).2).2)
  | [], l₂, seen => by simp [dedupWithSeen]
  | s :: rest, l₂, seen => by
      by_cases hs : s.name ∈ seen
      · simp [dedupWithSeen, hs, dedupWithSeen_append rest l₂ seen]
      · simp [dedupWithSeen, hs, dedupWithSeen_append rest l₂ (s.name :: seen)]

theorem scanDirs_eq_dedup (fs : ScanFs) (extract : String → String) (root : String) :
    ∀ (ds : List String) (seen : List String),
      scanDirs fs extract root ds seen =
        dedupWithSeen (ds.flatMap (rawDirSkills fs extract root)) seen
  | [], seen => rfl
  | d :: ds, seen => by
      cases hd : fs d with
      | none =>
          simp only [scanDirs, hd, List.flatMap_cons, rawDirSkills, List.nil_append]
          exact scanDirs_eq_dedup fs extract root ds seen
      | some entries =>
          simp only [scanDirs, hd, List.flatMap_cons, rawDirSkills]
          rw [scanDirEntries_eq_dedup, scanDirs_eq_dedup fs extract root ds, dedupWithSeen_append]

theorem dedupWithSeen_nodup :
    ∀ (l : List InstalledSkill) (seen : List String),
      ((dedupWithSeen l seen).1.map InstalledSkill.name).Nodup ∧
      ∀ n ∈ (dedupWithSeen l seen).1.map InstalledSkill.name, n ∉ seen
  | [], seen => by simp [dedupWithSeen]
  | s :: rest, seen => by
      by_cases hs : s.name ∈ seen
      · simpa [dedupWithSeen, hs] using dedupWithSeen_nodup rest seen
      · obtain ⟨h1, h2⟩ := dedupWithSeen_nodup rest (s.name :: seen)
        rw [show dedupWithSeen (s :: rest) seen =
            (s :: (dedupWithSeen rest (s.name :: seen)).1,
             (dedupWithSeen rest (s.name :: seen)).2) by simp [dedupWithSeen, hs]]
        simp only [List.map_cons, List.nodup_cons]
        refine ⟨⟨?_, h1⟩, ?_⟩
        · intro hmem
          exact (h2 _ hmem) (List.mem_cons_self _ _)
        · intro n hn
          rcases List.mem_cons.1 hn with rfl | hn'
          · exact hs
          · intro hseen
            exact (h2 _ hn') (List.mem_cons_of_mem _ hseen)

theorem dedupWithSeen_mem (s : InstalledSkill) :
    ∀ (l : List InstalledSkill) (seen : List String),
      s ∈ (dedupWithSeen l seen).1 ↔
        s.name ∉ seen ∧ ∃ l₁ l₂, l = l₁ ++ s :: l₂ ∧ s.name ∉ l₁.map InstalledSkill.name
  | [], seen => by
      constructor
      · intro h
        simp [dedupWithSeen] at h
      · rintro ⟨-, l₁, l₂, heq, -⟩
        cases l₁ <;> simp at heq
  | x :: rest, seen => by
      by_cases hx : x.name ∈ seen
      · rw [show dedupWithSeen (x :: rest) seen = dedupWithSeen rest seen by
          simp [dedupWithSeen, hx]]
        rw [dedupWithSeen_mem s rest seen]
        constructor
        · rintro ⟨hns, l₁, l₂, heq, hni⟩
          refine ⟨hns, x :: l₁, l₂, by simp [heq], ?_⟩
          simp only [List.map_cons, List.mem_cons, not_or]
          refine ⟨?_, hni⟩
          intro hsx
          exact hns (hsx ▸ hx)
        · rintro ⟨hns, l₁, l₂, heq, hni⟩
          cases l₁ with
          | nil =>
              simp only [List.nil_append, List.cons.injEq] at heq
              exact absurd (heq.1 ▸ hx) hns
          | cons y l₁' =>
              simp only [List.cons_append, List.cons.injEq] at heq
              obtain ⟨rfl, heq'⟩ := heq
              simp only [List.map_cons, List.mem_cons, not_or] at hni
              exact ⟨hns, l₁', l₂, heq', hni.2⟩
      · rw [show dedupWithSeen (x :: rest) seen =
            (x :: (dedupWithSeen rest (x.name :: seen)).1,
             (dedupWithSeen rest (x.name :: seen)).2) by simp [dedupWithSeen, hx]]
        simp only [List.mem_cons]
        constructor
        · rintro (rfl | hmem)
          · exact ⟨hx, [], rest, rfl, by simp⟩
          · obtain ⟨hns, l₁, l₂, heq, hni⟩ := (dedupWithSeen_mem s rest (x.name :: seen)).1 hmem
            simp only [List.mem_cons, not_or] at hns
            refine ⟨hns.2, x :: l₁, l₂, by simp [heq], ?_⟩
            simp only [List.map_cons, List.mem_cons, not_or]
            exact ⟨hns.1, hni⟩
        · rintro ⟨hns, l₁, l₂, heq, hni⟩
          cases l₁ with
          | nil =>
              simp only [List.nil_append, List.cons.injEq] at heq
              exact Or.inl heq.1.symm
          | cons y l₁' =>
              simp only [List.cons_append, List.cons.injEq] at heq
              obtain ⟨rfl, heq'⟩ := heq
              simp only [List.map_cons, List.mem_cons, not_or] at hni
              refine Or.inr ((dedupWithSeen_mem s rest (x.name :: seen)).2 ?_)
              exact ⟨by simp [hni.1, hns], l₁', l₂, heq', hni.2⟩

theorem dedupWithSeen_complete :
    ∀ (l : List InstalledSkill) (seen : List String) (n : String),
      n ∈ l.map InstalledSkill.name → n ∉ seen →
        n ∈ (dedupWithSeen l seen).1.map InstalledSkill.name
  | [], seen, n => by simp
  | x :: rest, seen, n => by
      intro hmem hns
      rcases List.mem_cons.1 hmem with rfl | hmem'
      · have hx : x.name ∉ seen := hns
        simp [dedupWithSeen, hx]
      · by_cases hx : x.name ∈ seen
        · simp only [dedupWithSeen, if_pos hx]
          exact dedupWithSeen_complete rest seen n hmem' hns
        · simp only [dedupWithSeen, if_neg hx, List.map_cons, List.mem_cons]
          by_cases hnx : n = x.name
          · exact Or.inl hnx
          · exact Or.inr (dedupWithSeen_complete rest (x.name :: seen) n hmem'
              (by simp [hnx, hns]))

theorem dedupWithSeen_names_eq (l : List InstalledSkill) (n : String) :
    n ∈ (dedupWithSeen l []).1.map InstalledSkill.name ↔
      n ∈ l.map InstalledSkill.name := by
  constructor
  · intro h
    obtain ⟨s, hs, rfl⟩ := List.mem_map.1 h
    obtain ⟨-, l₁, l₂, rfl, -⟩ := (dedupWithSeen_mem s l []).1 hs
    exact List.mem_map_of_mem _ (by simp)
  · intro h
    exact dedupWithSeen_complete l [] n h (by simp)

theorem rawEntrySkills_names (extract : String → String) (root d : String)
    (es : List DirEntry) (n : String) :
    n ∈ (rawEntrySkills extract root d es).map InstalledSkill.name ↔
      ∃ e ∈ es, isDirectoryOrSymlinkToDirectory e = true ∧
        e.skillMd.isSome = true ∧ e.name = n := by
  simp only [rawEntrySkills, List.map_filterMap, List.mem_filterMap]
  constructor
  · rintro ⟨e, he, hopt⟩
    by_cases hq : isDirectoryOrSymlinkToDirectory e = true
    · cases hmd : e.skillMd with
      | none => simp [hq, hmd] at hopt
      | some c =>
          simp only [hq, if_true, hmd, Option.map_some, Option.some.injEq] at hopt
          refine ⟨e, he, hq, by simp [hmd], ?_⟩
          simpa [mkInstalledSkill] using hopt
    · simp [hq] at hopt
  · rintro ⟨e, he, hq, hmd, rfl⟩
    obtain ⟨c, hc⟩ := Option.isSome_iff_exists.1 hmd
    exact ⟨e, he, by simp [hq, hc, mkInstalledSkill]⟩

/-- Claim C2: the aggregated installed-skill list has at most one entry per
skill name, project-scope search directories come before global-scope ones
in the fixed ordering, and relative to the dedup-free concatenation of
per-directory results in that ordering (`rawDirSkills` over `getSearchDirs`),
a skill is kept exactly when it is the first occurrence of its name — i.e.
the entry from the earliest directory wins and all later duplicates are
dropped, none of which is lost when no earlier duplicate exists. -/
theorem c2_dedup_first_wins (fs : ScanFs) (extract : String → String) (root home : String) :
    ((getSkillDirectories root home).map SkillDirectory.isProject =
      [true, true, true, true, false, false, false]) ∧
    ((findAllInstalledSkills fs extract root home).map InstalledSkill.name).Nodup ∧
    (∀ s, s ∈ findAllInstalledSkills fs extract root home ↔
      ∃ l₁ l₂,
        (getSearchDirs root home).flatMap (rawDirSkills fs extract root) = l₁ ++ s :: l₂ ∧
        s.name ∉ l₁.map InstalledSkill.name) ∧
    (∀ n,
      n ∈ ((getSearchDirs root home).flatMap (rawDirSkills fs extract root)).map
            InstalledSkill.name →
      n ∈ (findAllInstalledSkills fs extract root home).map InstalledSkill.name) := by
  refine ⟨rfl, ?_, ?_, ?_⟩
  · rw [findAllInstalledSkills, scanDirs_eq_dedup]
    exact (dedupWithSeen_nodup _ []).1
  · intro s
    rw [findAllInstalledSkills, scanDirs_eq_dedup, dedupWithSeen_mem]
    simp
  · intro n h
    rw [findAllInstalledSkills, scanDirs_eq_dedup]
    exact dedupWithSeen_complete _ [] n h (by simp)

/-- Concrete two-directory filesystem for the C2 witness: the project-scope
`.agent/skills` and the global `.agent/skills` both contain a skill named
"beta" with different descriptions. -/
def c2Fs : ScanFs := fun d =>
  if d = "/ws/.agent/skills" then some [⟨"beta", true, false, none, some "desc-project"⟩]
  else if d = "/home/u/.agent/skills" then
    some [⟨"beta", true, false, none, some "desc-global"⟩]
  else none

/-- Witness for C2: with "beta" present in both a project and a global search
directory, the aggregated list has exactly the one "beta" entry from the
project directory, and its name is reported present by the completeness
conjunct of the claim theorem. -/
theorem c2_witness :
    "beta" ∈ (findAllInstalledSkills c2Fs (fun c => c) "/ws" "/home/u").map
        InstalledSkill.name ∧
    (findAllInstalledSkills c2Fs (fun c => c) "/ws" "/home/u").map
        InstalledSkill.description = ["desc-project"] :=
  ⟨(c2_dedup_first_wins c2Fs (fun c => c) "/ws" "/home/u").2.2.2 "beta" (by decide),
   by decide⟩

/-- Concrete filesystem for the C5 counterexample: the first search directory
contains a hidden (dot-prefixed) directory entry that does hold a
`SKILL.md`. -/
def c5Fs : ScanFs := fun d =>
  if d = "/ws/.agent/skills" then some [⟨".hidden", true, false, none, some "x"⟩] else none

/-- Claim C5, counterexample.  The claim requires the scanner to include an
entry only when, among other conditions, its name is not hidden (does not
start with a dot); but `findAllInstalledSkills` performs no hidden-name
check, and a dot-prefixed directory with a `SKILL.md` is included as an
installed skill. -/
theorem c5_counterexample :
    (findAllInstalledSkills c5Fs (fun c => c) "/ws" "/home/u").map
        InstalledSkill.name = [".hidden"] ∧
    strStartsWith ".hidden" "." = true := by
  decide

/-- Claim C5 (amended): for a single scanned directory (with distinct entry
names, and no names claimed by an earlier directory), an entry contributes
an installed skill exactly when it is a directory or a symbolic link to a
directory and it has a `SKILL.md` at its top level — hidden (dot-prefixed)
names are not excluded by this scanner. -/
theorem c5_amended (extract : String → String) (root d : String) (es : List DirEntry)
    (hnodup : (es.map DirEntry.name).Nodup) (e : DirEntry) (he : e ∈ es) :
    (∃ s, s ∈ (scanDirEntries extract root d es []).1 ∧ s.name = e.name) ↔
      (isDirectoryOrSymlinkToDirectory e = true ∧ e.skillMd.isSome = true) := by
  rw [scanDirEntries_eq_dedup]
  have hmem : (∃ s, s ∈ (dedupWithSeen (rawEntrySkills extract root d es) []).1 ∧
      s.name = e.name) ↔
      e.name ∈ (dedupWithSeen (rawEntrySkills extract root d es) []).1.map
        InstalledSkill.name := by
    constructor
    · rintro ⟨s, hs, hn⟩
      exact hn ▸ List.mem_map_of_mem _ hs
    · intro h
      obtain ⟨s, hs, hn⟩ := List.mem_map.1 h
      exact ⟨s, hs, hn⟩
  rw [hmem, dedupWithSeen_names_eq, rawEntrySkills_names]
  constructor
  · rintro ⟨e2, he2, hq, hmd, hname⟩
    have : e2 = e := List.inj_on_of_nodup_map hnodup he2 he hname
    subst this
    exact ⟨hq, hmd⟩
  · rintro ⟨hq, hmd⟩
    exact ⟨e, he, hq, hmd, rfl⟩

/-- Witness for C5 (amended): a plain directory entry with a `SKILL.md` is
reported by the single-directory scan. -/
theorem c5_amended_witness :
    ∃ s, s ∈ (scanDirEntries (fun c => c) "/ws" "/ws/.agent/skills"
        [⟨"alpha", true, false, none, some "d"⟩] []).1 ∧ s.name = "alpha" :=
  (c5_amended (fun c => c) "/ws" "/ws/.agent/skills"
      [⟨"alpha", true, false, none, some "d"⟩] (by decide)
      ⟨"alpha", true, false, none, some "d"⟩ (by decide)).mpr (by decide)

/-! ### Repository-skill classification, from `src/skillsProvider.ts`

`getSkillMatchStatus` reads the provider's `installedSkillHashes` map (built
by `updateInstalledSkillHashes` from cached directory fingerprints, so the
empty-string sentinel can occur as a stored value), probes
`fs.existsSync(skill.localPath)`, and compares against the cached fingerprint
of the repository skill's working-tree copy; the last two collaborators are
the opaque parameters `pathExists` and `hashOf`.  JS truthiness is explicit:
`if (!installedHash)` rejects both a missing entry and the empty string, and
`if (skill.localPath && ...)` rejects both an absent and an empty path. -/

/-- The enum `SkillMatchStatus` of `src/types.ts`. -/
inductive SkillMatchStatus where
  | NotInstalled
  | Matched
  | Conflict
deriving DecidableEq, Repr

/-- `getSkillMatchStatus` of `src/skillsProvider.ts`. -/
def getSkillMatchStatus (installedSkillHashes : String → Option String)
    (pathExists : String → Bool) (hashOf : String → String)
    (skillName : String) (localPath : Option String) : SkillMatchStatus :=
  match installedSkillHashes skillName with
  | none => .NotInstalled
  | some installedHash =>
      if installedHash = "" then .NotInstalled
      else
        match localPath with
        | some p =>
            if p = "" then .NotInstalled
            else if pathExists p then
              if installedHash = hashOf p then .Matched else .Conflict
            else .NotInstalled
        | none => .NotInstalled

/-- Installed-skill index for the C1 counterexample: "alpha" is installed
with the genuine fingerprint "h1". -/
def c1Index : String → Option String := fun n => if n = "alpha" then some "h1" else none

/-- Claim C1, counterexample.  The claim says classification returns
`NotInstalled` exactly when no installed skill of the name exists; but for a
repository skill "alpha" whose working-tree copy is missing on disk
(`existsSync` false), `getSkillMatchStatus` returns `NotInstalled` even
though the installed index does hold an entry for "alpha". -/
theorem c1_counterexample :
    getSkillMatchStatus c1Index (fun _ => false) (fun _ => "h1") "alpha"
        (some "/repos/r/alpha") = SkillMatchStatus.NotInstalled ∧
    c1Index "alpha" = some "h1" ∧
    getSkillMatchStatus c1Index (fun _ => false) (fun _ => "h1") "alpha"
        (some "/repos/r/alpha") ≠ SkillMatchStatus.Conflict := by
  decide

/-- Claim C1 (amended): `Matched` iff an installed skill of the same name
exists with a non-empty fingerprint, the repository skill's working-tree
path is present, non-empty and exists on disk, and the two fingerprints are
equal; `Conflict` under the same conditions with differing fingerprints; and
`NotInstalled` in every other case — no installed entry, the empty-string
fingerprint sentinel, or a missing working-tree path. -/
theorem c1_amended_classification (idx : String → Option String) (pathExists : String → Bool)
    (hashOf : String → String) (n : String) (lp : Option String) :
    (getSkillMatchStatus idx pathExists hashOf n lp = SkillMatchStatus.Matched ↔
      ∃ h p, idx n = some h ∧ h ≠ "" ∧ lp = some p ∧ p ≠ "" ∧ pathExists p = true ∧
        h = hashOf p) ∧
    (getSkillMatchStatus idx pathExists hashOf n lp = SkillMatchStatus.Conflict ↔
      ∃ h p, idx n = some h ∧ h ≠ "" ∧ lp = some p ∧ p ≠ "" ∧ pathExists p = true ∧
        h ≠ hashOf p) ∧
    (getSkillMatchStatus idx pathExists hashOf n lp = SkillMatchStatus.NotInstalled ↔
      (idx n = none ∨ idx n = some "" ∨ lp = none ∨ lp = some "" ∨
        ∃ p, lp = some p ∧ pathExists p = false)) := by
  cases hidx : idx n with
  | none => simp [getSkillMatchStatus, hidx]
  | some h =>
      by_cases hh : h = ""
      · subst hh
        simp [getSkillMatchStatus, hidx]
      · cases hlp : lp with
        | none => simp [getSkillMatchStatus, hidx, hh]
        | some p =>
            by_cases hp : p = ""
            · subst hp
              simp [getSkillMatchStatus, hidx, hh]
            · cases hex : pathExists p with
              | false => simp [getSkillMatchStatus, hidx, hh, hp, hex]
              | true =>
                  by_cases hcmp : h = hashOf p
                  · have hh2 : hashOf p ≠ "" := hcmp ▸ hh
                    simp [getSkillMatchStatus, hidx, hh, hh2, hp, hex, hcmp]
                  · simp [getSkillMatchStatus, hidx, hh, hp, hex, hcmp]

/-- Witness for C1 (amended): equal non-empty fingerprints with an existing
working tree classify as `Matched`. -/
theorem c1_amended_witness :
    getSkillMatchStatus c1Index (fun _ => true) (fun _ => "h1") "alpha"
        (some "/repos/r/alpha") = SkillMatchStatus.Matched :=
  (c1_amended_classification c1Index (fun _ => true) (fun _ => "h1") "alpha"
      (some "/repos/r/alpha")).1.mpr
    ⟨"h1", "/repos/r/alpha", by decide, by decide, rfl, by decide, rfl, rfl⟩

/-- Claim C10: the empty string is the fingerprint sentinel for an impossible
hash — `getCachedDirectoryHash` yields it (without touching the cache) for a
missing directory — and classification treats the sentinel as absence: an
installed entry whose stored fingerprint is the empty string classifies as
`NotInstalled` (never `Conflict`), and likewise a repository skill whose
working-tree path is absent or missing on disk classifies as `NotInstalled`
even when an installed skill of the same name exists. -/
theorem c10_empty_fingerprint_sentinel :
    (∀ (digest : String → String) (fs : Filesystem) (cache : HashCache) (p : String),
      fs p = none → getCachedDirectoryHash digest fs cache p = ("", cache)) ∧
    (∀ (idx : String → Option String) (pathExists : String → Bool)
        (hashOf : String → String) (n : String) (lp : Option String),
      idx n = some "" →
        getSkillMatchStatus idx pathExists hashOf n lp = SkillMatchStatus.NotInstalled) ∧
    (∀ (idx : String → Option String) (pathExists : String → Bool)
        (hashOf : String → String) (n : String),
      getSkillMatchStatus idx pathExists hashOf n none = SkillMatchStatus.NotInstalled) ∧
    (∀ (idx : String → Option String) (pathExists : String → Bool)
        (hashOf : String → String) (n p : String),
      pathExists p = false →
        getSkillMatchStatus idx pathExists hashOf n (some p) =
          SkillMatchStatus.NotInstalled) := by
  refine ⟨?_, ?_, ?_, ?_⟩
  · intro digest fs cache p hp
    simp [getCachedDirectoryHash, hp]
  · intro idx pathExists hashOf n lp hidx
    simp [getSkillMatchStatus, hidx]
  · intro idx pathExists hashOf n
    cases hidx : idx n with
    | none => simp [getSkillMatchStatus, hidx]
    | some h => by_cases hh : h = "" <;> simp [getSkillMatchStatus, hidx, hh]
  · intro idx pathExists hashOf n p hex
    cases hidx : idx n with
    | none => simp [getSkillMatchStatus, hidx]
    | some h =>
        by_cases hh : h = ""
        · simp [getSkillMatchStatus, hidx, hh]
        · by_cases hp : p = "" <;> simp [getSkillMatchStatus, hidx, hh, hp, hex]

/-- Witness for C10: an installed "alpha" whose stored fingerprint is the
empty-string sentinel classifies as `NotInstalled` although the index holds
an entry for it. -/
theorem c10_witness :
    getSkillMatchStatus (fun n => if n = "alpha" then some "" else none)
        (fun _ => true) (fun _ => "") "alpha" (some "/repos/r/alpha") =
      SkillMatchStatus.NotInstalled :=
  c10_empty_fingerprint_sentinel.2.1 (fun n => if n = "alpha" then some "" else none)
    (fun _ => true) (fun _ => "") "alpha" (some "/repos/r/alpha") (by decide)

/-! ### Rules-file synchronizer, from `src/services/sync.ts`

The two helpers of `src/utils/agentsMd.ts` (`generateSkillsXml`,
`replaceSkillsSection`) and the pre-existing rules-file content are opaque
parameters; the returned `Option String` is the content written by
`fs.writeFileSync` (`none` when nothing is written). -/

/-- The interface `SyncResult` of `src/types.ts`. -/
structure SyncResult where
  success : Bool
  message : String
  count : Nat
deriving DecidableEq, Repr

/-- `path.basename`. -/
def pathBasename (p : String) : String := (p.splitOn "/").getLastD p

/-- `syncToAgentsMd` of `src/services/sync.ts`. -/
def syncToAgentsMd (fs : ScanFs) (extract : String → String) (home : String)
    (generateSkillsXml : List InstalledSkill → String)
    (replaceSkillsSection : String → String → String)
    (existingRules : Option String) (workspaceRoot : String)
    (ideName : Option String) : SyncResult × Option String :=
  let config := getIdeConfig (strOrFalsy ideName "vscode")
  let outputPath := pathJoin workspaceRoot config.rulesFile
  if strEndsWith outputPath ".md" = false ∧ strEndsWith outputPath ".mdc" = false then
    (⟨false, "Output file must be a markdown file (.md or .mdc)", 0⟩, none)
  else
    let skills := findAllInstalledSkills fs extract workspaceRoot home
    if skills.length = 0 then
      (⟨true, "No skills installed. Install skills first.", 0⟩, none)
    else
      let content :=
        match existingRules with
        | some c => c
        | none => config.initialContent
      let updated := replaceSkillsSection content (generateSkillsXml skills)
      (⟨true, "Successfully synced skills to " ++ pathBasename outputPath, skills.length⟩,
       some updated)

theorem strEndsWith_append (a b suf : String) (h : strEndsWith b suf = true) :
    strEndsWith (a ++ b) suf = true := by
  obtain ⟨la⟩ := a
  obtain ⟨lb⟩ := b
  simp only [strEndsWith, List.isSuffixOf_iff_suffix] at h ⊢
  exact h.trans (List.suffix_append la lb)

theorem config_rulesFile_markdown (t : IdeType) :
    strEndsWith (IDE_CONFIGS t).rulesFile ".md" = true ∨
      strEndsWith (IDE_CONFIGS t).rulesFile ".mdc" = true := by
  cases t <;> first | exact Or.inl (by decide) | exact Or.inr (by decide)

theorem getIdeConfig_exists (s : String) : ∃ t, getIdeConfig s = IDE_CONFIGS t := by
  unfold getIdeConfig
  cases ideOfId s with
  | none => exact ⟨_, rfl⟩
  | some t => exact ⟨t, rfl⟩

/-- Claim C9: when the installed-skill scan over the workspace finds zero
skills, `syncToAgentsMd` returns success with count 0 and the
nothing-to-sync message, writing nothing — the empty set is not an error. -/
theorem c9_zero_skills_success (fs : ScanFs) (extract : String → String) (home : String)
    (generateSkillsXml : List InstalledSkill → String)
    (replaceSkillsSection : String → String → String)
    (existingRules : Option String) (workspaceRoot : String) (ideName : Option String)
    (hempty : findAllInstalledSkills fs extract workspaceRoot home = []) :
    syncToAgentsMd fs extract home generateSkillsXml replaceSkillsSection existingRules
        workspaceRoot ideName =
      (⟨true, "No skills installed. Install skills first.", 0⟩, none) := by
  obtain ⟨t, ht⟩ := getIdeConfig_exists (strOrFalsy ideName "vscode")
  have hval : ¬(strEndsWith (pathJoin workspaceRoot (IDE_CONFIGS t).rulesFile) ".md" = false ∧
      strEndsWith (pathJoin workspaceRoot (IDE_CONFIGS t).rulesFile) ".mdc" = false) := by
    rcases config_rulesFile_markdown t with h | h
    · intro hc
      rw [show pathJoin workspaceRoot (IDE_CONFIGS t).rulesFile =
          (workspaceRoot ++ "/") ++ (IDE_CONFIGS t).rulesFile from rfl] at hc
      rw [strEndsWith_append _ _ _ h] at hc
      exact absurd hc.1 (by simp)
    · intro hc
      rw [show pathJoin workspaceRoot (IDE_CONFIGS t).rulesFile =
          (workspaceRoot ++ "/") ++ (IDE_CONFIGS t).rulesFile from rfl] at hc
      rw [strEndsWith_append _ _ _ h] at hc
      exact absurd hc.2 (by simp)
  simp only [syncToAgentsMd, ht, hempty, List.length_nil, if_neg hval]
  simp

/-- Witness for C9: on a filesystem with no search directory present, sync
reports success with count 0 and writes nothing. -/
theorem c9_witness :
    syncToAgentsMd (fun _ => none) (fun c => c) "/home/u" (fun _ => "") (fun _ s => s)
        none "/ws" none =
      (⟨true, "No skills installed. Install skills first.", 0⟩, none) :=
  c9_zero_skills_success (fun _ => none) (fun c => c) "/home/u" (fun _ => "") (fun _ s => s)
    none "/ws" none (by decide)

end AgentSkills
